import Mathlib

/-!
# Link-layer address accessor (`src/target/macos/ffi/lladdr.c`)

A shallow embedding of the C translation unit

```c
  #if defined(__unix__) || (defined(__APPLE__) && defined(__MACH__))
    uint8_t* lladdr(struct ifaddrs* ifap) {
      return (uint8_t *)LLADDR((struct sockaddr_dl *)(ifap)->ifa_addr);
    }
  #endif
```

Memory is a finite list of typed blocks; a pointer is either null or a block
identifier with a byte offset inside the block.  A load that leaves its block,
goes through the null pointer or meets an object of the wrong type has no
defined behaviour in C and yields `none` here.  Pointer arithmetic only moves
the offset and never fails; accesses are checked.
-/

namespace NetworkInterface

/-- One octet, the C type `uint8_t` / `u_char`. -/
abbrev Byte := Fin 256

/-- A C pointer value: null, or byte offset `off` inside block `blk`. -/
inductive Ptr where
  | null : Ptr
  | addr (blk off : Nat) : Ptr
  deriving DecidableEq

/-- Pointer arithmetic `p + n` on a byte pointer. -/
def Ptr.add : Ptr → Nat → Ptr
  | .null, _ => .null
  | .addr blk off, n => .addr blk (off + n)

/-- The C declaration `struct ifaddrs` of the platform header `ifaddrs.h`:
one entry of the list built by the interface enumeration. -/
structure ifaddrs where
  ifa_next : Ptr
  ifa_name : Ptr
  ifa_flags : Nat
  ifa_addr : Ptr
  ifa_netmask : Ptr
  ifa_dstaddr : Ptr
  ifa_data : Ptr
  deriving DecidableEq

/-- The content of one memory block: an interface-address record, or raw
bytes (socket addresses live in raw byte blocks). -/
inductive Obj where
  | ifa (r : ifaddrs) : Obj
  | bytes (bs : List Byte) : Obj
  deriving DecidableEq

/-- The memory state: block `i` is the `i`-th entry; an index past the end is
an unallocated block. -/
abbrev Mem := List Obj

/-- Load of one byte, `*(uint8_t *)p`. -/
def load8 (m : Mem) : Ptr → Option Byte
  | .null => none
  | .addr blk off =>
    match m[blk]? with
    | some (.bytes bs) => bs[off]?
    | _ => none

/-- Store of one byte, `*(uint8_t *)p = v`; undefined outside a byte block. -/
def store8 (m : Mem) (p : Ptr) (v : Byte) : Option Mem :=
  match p with
  | .null => none
  | .addr blk off =>
    match m[blk]? with
    | some (.bytes bs) =>
      if off < bs.length then some (m.set blk (.bytes (bs.set off v))) else none
    | _ => none

/-- The member access `(ifap)->ifa_addr`. -/
def load_ifa_addr (m : Mem) : Ptr → Option Ptr
  | .addr blk 0 =>
    match m[blk]? with
    | some (.ifa r) => some r.ifa_addr
    | _ => none
  | _ => none

/-- Address family `AF_LINK` of the BSD socket headers. -/
def AF_LINK : Nat := 18

/-- Byte offsets of the members of `struct sockaddr_dl` (`net/if_dl.h`):
`u_char sdl_len; u_char sdl_family; u_short sdl_index; u_char sdl_type;
u_char sdl_nlen; u_char sdl_alen; u_char sdl_slen; char sdl_data[]`. -/
def off_sdl_len : Nat := 0

/-- Offset of `sdl_family`. -/
def off_sdl_family : Nat := 1

/-- Offset of the two-byte `sdl_index`. -/
def off_sdl_index : Nat := 2

/-- Offset of `sdl_type`. -/
def off_sdl_type : Nat := 4

/-- Offset of `sdl_nlen`, the length of the interface name. -/
def off_sdl_nlen : Nat := 5

/-- Offset of `sdl_alen`, the length of the link-level address. -/
def off_sdl_alen : Nat := 6

/-- Offset of `sdl_slen`. -/
def off_sdl_slen : Nat := 7

/-- Offset of `sdl_data`, which is also the size of the fixed header. -/
def off_sdl_data : Nat := 8

/-- Modelled from the spec: the macro `LLADDR` and the layout of
`struct sockaddr_dl` belong to the platform header `net/if_dl.h`, which is not
part of the repository sources.  The spec (4.1, Result) places the view inside
the address sub-structure after the fixed header fields and the name length;
the header defines `LLADDR(s)` as `(s)->sdl_data + (s)->sdl_nlen`. -/
def LLADDR (m : Mem) (s : Ptr) : Option Ptr :=
  match load8 m (s.add off_sdl_nlen) with
  | none => none
  | some nlen => some ((s.add off_sdl_data).add nlen.val)

/-- The function `lladdr` of `lladdr.c`, in state-passing form: the view and the
memory after the call.  The casts to `struct sockaddr_dl *` and `uint8_t *` do
not change the pointer value. -/
def lladdr (ifap : Ptr) (m : Mem) : Option (Ptr × Mem) :=
  match load_ifa_addr m ifap with
  | none => none
  | some sa =>
    match LLADDR m sa with
    | none => none
    | some p => some (p, m)

/-- What a caller does with the view: read `n` consecutive bytes from `p`. -/
def read_view (m : Mem) (p : Ptr) : Nat → Option (List Byte)
  | 0 => some []
  | n + 1 =>
    match load8 m p, read_view m (p.add 1) n with
    | some b, some bs => some (b :: bs)
    | _, _ => none

/-- The decoded fixed header of a `struct sockaddr_dl`. -/
structure sockaddr_dl_hdr where
  sdl_len : Nat
  sdl_family : Nat
  sdl_index : Nat
  sdl_type : Nat
  sdl_nlen : Nat
  sdl_alen : Nat
  sdl_slen : Nat
  deriving DecidableEq

/-- Read the fixed header fields of the `struct sockaddr_dl` at `s`
(`sdl_index` in the byte order of the little-endian hosts). -/
def read_hdr (m : Mem) (s : Ptr) : Option sockaddr_dl_hdr :=
  match load8 m (s.add off_sdl_len), load8 m (s.add off_sdl_family),
      load8 m (s.add off_sdl_index), load8 m (s.add (off_sdl_index + 1)),
      load8 m (s.add off_sdl_type), load8 m (s.add off_sdl_nlen),
      load8 m (s.add off_sdl_alen), load8 m (s.add off_sdl_slen) with
  | some l, some f, some i0, some i1, some t, some n, some a, some sl =>
    some ⟨l.val, f.val, i0.val + 256 * i1.val, t.val, n.val, a.val, sl.val⟩
  | _, _, _, _, _, _, _, _ => none

/-- The bytes of a `struct sockaddr_dl` as the enumeration lays them out: the
eight header bytes, the interface name, the hardware address, then padding. -/
def encode_sockaddr_dl (h : sockaddr_dl_hdr) (name addr pad : List Byte) : List Byte :=
  [Fin.ofNat h.sdl_len, Fin.ofNat h.sdl_family, Fin.ofNat (h.sdl_index % 256),
   Fin.ofNat (h.sdl_index / 256), Fin.ofNat h.sdl_type, Fin.ofNat h.sdl_nlen,
   Fin.ofNat h.sdl_alen, Fin.ofNat h.sdl_slen] ++ name ++ addr ++ pad

/-- The socket address of interface `en0`: total length 20, family `AF_LINK`,
index 4, type 6, a three-byte name and a six-byte hardware address. -/
def en0_sockaddr : List Byte :=
  [20, 18, 4, 0, 6, 3, 6, 0, 101, 110, 48, 0xaa, 0xbb, 0xcc, 0xdd, 0xee, 0xff, 0, 0, 0]

/-- A memory with the interface record in block 0 and its socket address in
block 1. -/
def en0_mem : Mem :=
  [.ifa ⟨.null, .null, 0, .addr 1 0, .null, .null, .null⟩, .bytes en0_sockaddr]

/-- The socket address of the loopback interface `lo0`: total length 20, a
three-byte name and no hardware address. -/
def lo0_sockaddr : List Byte :=
  [20, 18, 1, 0, 24, 3, 0, 0, 108, 111, 48, 0, 0, 0, 0, 0, 0, 0, 0, 0]

/-- A memory with the loopback record in block 0 and its socket address in
block 1. -/
def lo0_mem : Mem :=
  [.ifa ⟨.null, .null, 0, .addr 1 0, .null, .null, .null⟩, .bytes lo0_sockaddr]

/-- The `en0` memory after the third hardware-address byte is overwritten
with `0x11`. -/
def en0_mem_written : Mem :=
  [.ifa ⟨.null, .null, 0, .addr 1 0, .null, .null, .null⟩,
   .bytes [20, 18, 4, 0, 6, 3, 6, 0, 101, 110, 48, 0xaa, 0xbb, 0x11, 0xdd, 0xee, 0xff, 0, 0, 0]]

/-- The `en0` memory with the family byte changed from `AF_LINK` (18) to
`AF_INET` (2). -/
def en0_mem_inet : Mem :=
  [.ifa ⟨.null, .null, 0, .addr 1 0, .null, .null, .null⟩,
   .bytes [20, 2, 4, 0, 6, 3, 6, 0, 101, 110, 48, 0xaa, 0xbb, 0xcc, 0xdd, 0xee, 0xff, 0, 0, 0]]

/-- The `en0` memory with the stored address length changed from 6 to 0. -/
def en0_mem_alen0 : Mem :=
  [.ifa ⟨.null, .null, 0, .addr 1 0, .null, .null, .null⟩,
   .bytes [20, 18, 4, 0, 6, 3, 0, 0, 101, 110, 48, 0xaa, 0xbb, 0xcc, 0xdd, 0xee, 0xff, 0, 0, 0]]

/-! ## Pointer and memory lemmas -/

theorem Ptr.add_add (p : Ptr) (a b : Nat) : (p.add a).add b = p.add (a + b) := by
  cases p with
  | null => rfl
  | addr blk off => simp [Ptr.add, Nat.add_assoc]

theorem Ptr.add_zero (p : Ptr) : p.add 0 = p := by
  cases p <;> rfl

theorem load8_addr (m : Mem) (blk off : Nat) (bs : List Byte)
    (hb : m[blk]? = some (.bytes bs)) : load8 m (.addr blk off) = bs[off]? := by
  simp [load8, hb]

theorem load8_some_addr (m : Mem) (p : Ptr) (b : Byte) (h : load8 m p = some b) :
    ∃ blk off bs, p = .addr blk off ∧ m[blk]? = some (.bytes bs) ∧ bs[off]? = some b := by
  cases p with
  | null => simp [load8] at h
  | addr blk off =>
    cases hb : m[blk]? with
    | none => simp [load8, hb] at h
    | some o =>
      cases o with
      | ifa r => simp [load8, hb] at h
      | bytes bs => exact ⟨blk, off, bs, rfl, hb, by simpa [load8, hb] using h⟩

theorem lladdr_some_iff (ifap : Ptr) (m : Mem) (p : Ptr) (m' : Mem) :
    lladdr ifap m = some (p, m') ↔
      ∃ sa nlen, load_ifa_addr m ifap = some sa ∧
        load8 m (sa.add off_sdl_nlen) = some nlen ∧
        p = (sa.add off_sdl_data).add nlen.val ∧ m' = m := by
  unfold lladdr LLADDR
  cases h1 : load_ifa_addr m ifap with
  | none => simp
  | some sa =>
    cases h2 : load8 m (sa.add off_sdl_nlen) with
    | none => simp [h2]
    | some nlen =>
      simp only [h2, Option.some.injEq, Prod.mk.injEq]
      constructor
      · rintro ⟨rfl, rfl⟩
        exact ⟨sa, nlen, rfl, h2, rfl, rfl⟩
      · rintro ⟨sa', nlen', hsa, hn, rfl, rfl⟩
        cases hsa
        rw [h2] at hn
        cases hn
        exact ⟨rfl, rfl⟩

theorem lladdr_of_valid (ifap : Ptr) (m : Mem) (sa : Ptr) (nlen : Byte)
    (hsa : load_ifa_addr m ifap = some sa)
    (hn : load8 m (sa.add off_sdl_nlen) = some nlen) :
    lladdr ifap m = some ((sa.add off_sdl_data).add nlen.val, m) :=
  (lladdr_some_iff ifap m _ m).2 ⟨sa, nlen, hsa, hn, rfl, rfl⟩

theorem read_view_spec (m : Mem) (n : Nat) (p : Ptr) (bs : List Byte) :
    read_view m p n = some bs ↔
      bs.length = n ∧ ∀ i, i < n → load8 m (p.add i) = bs[i]? := by
  induction n generalizing p bs with
  | zero =>
    simp only [read_view, Option.some.injEq]
    constructor
    · rintro rfl
      exact ⟨rfl, fun i hi => absurd hi (Nat.not_lt_zero i)⟩
    · rintro ⟨hl, -⟩
      exact (List.length_eq_zero.mp hl).symm
  | succ n ih =>
    constructor
    · intro h
      simp only [read_view] at h
      cases hb : load8 m p with
      | none => simp [hb] at h
      | some b =>
        cases hr : read_view m (p.add 1) n with
        | none => simp [hb, hr] at h
        | some tl =>
          simp only [hb, hr, Option.some.injEq] at h
          subst h
          obtain ⟨hl, hi⟩ := (ih (p.add 1) tl).1 hr
          refine ⟨by simp [hl], ?_⟩
          intro i hlt
          cases i with
          | zero => simpa [Ptr.add_zero] using hb
          | succ j =>
            have := hi j (Nat.lt_of_succ_lt_succ hlt)
            rw [Ptr.add_add] at this
            simpa [Nat.add_comm] using this
    · rintro ⟨hl, hi⟩
      cases bs with
      | nil => simp at hl
      | cons b tl =>
        have h0 : load8 m p = some b := by
          have := hi 0 (Nat.succ_pos n)
          simpa [Ptr.add_zero] using this
        have htl : read_view m (p.add 1) n = some tl := by
          refine (ih (p.add 1) tl).2 ⟨by simpa using hl, ?_⟩
          intro i hlt
          have := hi (i + 1) (Nat.succ_lt_succ hlt)
          rw [Ptr.add_add]
          simpa [Nat.add_comm] using this
        simp [read_view, h0, htl]

theorem load8_store8_same (m m' : Mem) (p : Ptr) (v : Byte)
    (h : store8 m p v = some m') : load8 m' p = some v := by
  cases p with
  | null => simp [store8] at h
  | addr blk off =>
    cases hb : m[blk]? with
    | none => simp [store8, hb] at h
    | some o =>
      cases o with
      | ifa r => simp [store8, hb] at h
      | bytes bs =>
        simp only [store8, hb] at h
        split at h
        · rename_i hlt
          cases h
          have hblk : blk < m.length := by
            rcases Nat.lt_or_ge blk m.length with hl | hl
            · exact hl
            · rw [List.getElem?_eq_none hl] at hb
              cases hb
          simp [load8, List.getElem?_set_self, hblk, hlt]
        · cases h

theorem load8_store8_other (m m' : Mem) (p q : Ptr) (v : Byte)
    (h : store8 m p v = some m') (hne : q ≠ p) : load8 m' q = load8 m q := by
  cases p with
  | null => simp [store8] at h
  | addr blk off =>
    cases hb : m[blk]? with
    | none => simp [store8, hb] at h
    | some o =>
      cases o with
      | ifa r => simp [store8, hb] at h
      | bytes bs =>
        simp only [store8, hb] at h
        split at h
        · cases h
          cases q with
          | null => rfl
          | addr qb qo =>
            by_cases hq : qb = blk
            · subst hq
              have hoff : off ≠ qo := by
                intro hc
                exact hne (by rw [hc])
              have hblk : qb < m.length := by
                rcases Nat.lt_or_ge qb m.length with hl | hl
                · exact hl
                · rw [List.getElem?_eq_none hl] at hb
                  cases hb
              simp [load8, List.getElem?_set_self, hblk, hb, List.getElem?_set_ne hoff]
            · have hq' : blk ≠ qb := fun hc => hq hc.symm
              simp [load8, List.getElem?_set_ne hq']
        · cases h

theorem load_ifa_addr_store8 (m m' : Mem) (p q : Ptr) (v : Byte)
    (h : store8 m p v = some m') : load_ifa_addr m' q = load_ifa_addr m q := by
  cases p with
  | null => simp [store8] at h
  | addr blk off =>
    cases hb : m[blk]? with
    | none => simp [store8, hb] at h
    | some o =>
      cases o with
      | ifa r => simp [store8, hb] at h
      | bytes bs =>
        simp only [store8, hb] at h
        split at h
        · cases h
          cases q with
          | null => rfl
          | addr qb qo =>
            cases qo with
            | succ k => simp [load_ifa_addr]
            | zero =>
              by_cases hq : qb = blk
              · subst hq
                have hblk : qb < m.length := by
                  rcases Nat.lt_or_ge qb m.length with hl | hl
                  · exact hl
                  · rw [List.getElem?_eq_none hl] at hb
                    cases hb
                simp [load_ifa_addr, List.getElem?_set_self, hblk, hb]
              · have hq' : blk ≠ qb := fun hc => hq hc.symm
                simp [load_ifa_addr, List.getElem?_set_ne hq']
        · cases h

theorem encode_get_nlen (h : sockaddr_dl_hdr) (pre name addr pad : List Byte) :
    (pre ++ encode_sockaddr_dl h name addr pad)[pre.length + off_sdl_nlen]? =
      some (Fin.ofNat h.sdl_nlen) := by
  rw [List.getElem?_append_right (Nat.le_add_right _ _)]
  simp [encode_sockaddr_dl, off_sdl_nlen]

theorem encode_get_addr (h : sockaddr_dl_hdr) (pre name addr pad : List Byte) (i : Nat)
    (hi : i < addr.length) :
    (pre ++ encode_sockaddr_dl h name addr pad)[pre.length + off_sdl_data + name.length + i]? =
      addr[i]? := by
  have e : pre ++ encode_sockaddr_dl h name addr pad =
      (pre ++ [Fin.ofNat h.sdl_len, Fin.ofNat h.sdl_family, Fin.ofNat (h.sdl_index % 256),
        Fin.ofNat (h.sdl_index / 256), Fin.ofNat h.sdl_type, Fin.ofNat h.sdl_nlen,
        Fin.ofNat h.sdl_alen, Fin.ofNat h.sdl_slen] ++ name) ++ (addr ++ pad) := by
    simp [encode_sockaddr_dl]
  rw [e, List.getElem?_append_right (by simp [off_sdl_data]; omega)]
  have e2 : pre.length + off_sdl_data + name.length + i -
      (pre ++ [Fin.ofNat h.sdl_len, Fin.ofNat h.sdl_family, Fin.ofNat (h.sdl_index % 256),
        Fin.ofNat (h.sdl_index / 256), Fin.ofNat h.sdl_type, Fin.ofNat h.sdl_nlen,
        Fin.ofNat h.sdl_alen, Fin.ofNat h.sdl_slen] ++ name).length = i := by
    simp [off_sdl_data]
    omega
  rw [e2, List.getElem?_append_left hi]

theorem lladdr_store8_field (ifap : Ptr) (m m' : Mem) (sa : Ptr) (nlen v : Byte) (k : Nat)
    (hsa : load_ifa_addr m ifap = some sa)
    (hn : load8 m (sa.add off_sdl_nlen) = some nlen)
    (hk : k ≠ off_sdl_nlen)
    (hw : store8 m (sa.add k) v = some m') :
    lladdr ifap m' = some ((sa.add off_sdl_data).add nlen.val, m') := by
  apply lladdr_of_valid
  · rw [load_ifa_addr_store8 m m' _ ifap v hw, hsa]
  · rw [load8_store8_other m m' _ _ v hw ?_, hn]
    cases sa with
    | null => simp [Ptr.add, load8] at hn
    | addr blk off =>
      simp only [Ptr.add, ne_eq, Ptr.addr.injEq, true_and]
      omega

theorem read_hdr_some (m : Mem) (s : Ptr) (hdr : sockaddr_dl_hdr)
    (h : read_hdr m s = some hdr) :
    ∃ l f n a : Byte, load8 m (s.add off_sdl_len) = some l ∧
      load8 m (s.add off_sdl_family) = some f ∧
      load8 m (s.add off_sdl_nlen) = some n ∧
      load8 m (s.add off_sdl_alen) = some a ∧
      hdr.sdl_len = l.val ∧ hdr.sdl_family = f.val ∧
      hdr.sdl_nlen = n.val ∧ hdr.sdl_alen = a.val := by
  unfold read_hdr at h
  split at h
  · rename_i l f i0 i1 t n a sl h1 h2 h3 h4 h5 h6 h7 h8
    cases h
    exact ⟨l, f, n, a, h1, h2, h6, h7, rfl, rfl, rfl, rfl⟩
  · cases h

/-! ## The claims -/

/-- C1: for a valid interface-address record whose link-layer socket address
carries the bytes `b` at its address field (after the eight header bytes and
the interface name), the view returned by `lladdr` reads back exactly `b`:
byte `i` of the view is byte `i` of `b`. -/
theorem lladdr_reads_back (m : Mem) (rblk sblk : Nat) (r : ifaddrs)
    (h : sockaddr_dl_hdr) (pre name b pad : List Byte)
    (hr : m[rblk]? = some (.ifa r))
    (haddr : r.ifa_addr = .addr sblk pre.length)
    (hs : m[sblk]? = some (.bytes (pre ++ encode_sockaddr_dl h name b pad)))
    (_hfam : h.sdl_family = AF_LINK)
    (hn : h.sdl_nlen = name.length) (hlen : name.length < 256) :
    ∃ p, lladdr (.addr rblk 0) m = some (p, m) ∧
      read_view m p b.length = some b ∧
      ∀ i (hi : i < b.length), load8 m (p.add i) = some (b.get ⟨i, hi⟩) := by
  have hsa : load_ifa_addr m (.addr rblk 0) = some (.addr sblk pre.length) := by
    simp [load_ifa_addr, hr, haddr]
  have hnl : load8 m ((Ptr.addr sblk pre.length).add off_sdl_nlen) =
      some (Fin.ofNat h.sdl_nlen) := by
    simp only [Ptr.add]
    rw [load8_addr m sblk _ _ hs, encode_get_nlen]
  have hval : (Fin.ofNat h.sdl_nlen : Byte).val = name.length := by
    rw [hn]
    exact Nat.mod_eq_of_lt hlen
  have hbytes : ∀ i, i < b.length →
      load8 m ((((Ptr.addr sblk pre.length).add off_sdl_data).add
        (Fin.ofNat h.sdl_nlen : Byte).val).add i) = b[i]? := by
    intro i hi
    rw [hval]
    simp only [Ptr.add]
    rw [load8_addr m sblk _ _ hs, encode_get_addr h pre name b pad i hi]
  refine ⟨_, lladdr_of_valid _ m _ _ hsa hnl, ?_, ?_⟩
  · exact (read_view_spec m b.length _ b).2 ⟨rfl, hbytes⟩
  · intro i hi
    rw [hbytes i hi]
    simp [List.getElem?_eq_getElem hi]

/-- Witness of C1 on the `en0` memory: the six hardware-address bytes are read
back through the view. -/
theorem lladdr_reads_back_witness :
    ∃ p, lladdr (.addr 0 0) en0_mem = some (p, en0_mem) ∧
      read_view en0_mem p 6 = some [0xaa, 0xbb, 0xcc, 0xdd, 0xee, 0xff] ∧
      ∀ i (hi : i < 6), load8 en0_mem (p.add i) =
        some (([0xaa, 0xbb, 0xcc, 0xdd, 0xee, 0xff] : List Byte).get ⟨i, hi⟩) :=
  lladdr_reads_back en0_mem 0 1 ⟨.null, .null, 0, .addr 1 0, .null, .null, .null⟩
    ⟨20, 18, 4, 6, 3, 6, 0⟩ [] [101, 110, 48] [0xaa, 0xbb, 0xcc, 0xdd, 0xee, 0xff] [0, 0, 0]
    rfl rfl rfl rfl rfl (by decide)

/-- C2: `lladdr` is idempotent and deterministic: a second call on the
unmodified record returns a view at the same position with the same byte
content, and two calls in sequence amount to one. -/
theorem lladdr_idempotent (ifap : Ptr) (m : Mem) :
    ((lladdr ifap m).bind (fun r => lladdr ifap r.2) = lladdr ifap m) ∧
    ∀ p1 m1, lladdr ifap m = some (p1, m1) →
      ∃ p2 m2, lladdr ifap m1 = some (p2, m2) ∧ p2 = p1 ∧
        ∀ n, read_view m2 p2 n = read_view m1 p1 n := by
  have key : ∀ p1 m1, lladdr ifap m = some (p1, m1) → lladdr ifap m1 = some (p1, m1) := by
    intro p1 m1 h
    obtain ⟨sa, nlen, hsa, hn, hp, hm⟩ := (lladdr_some_iff ifap m p1 m1).1 h
    subst hm
    exact h
  constructor
  · cases h : lladdr ifap m with
    | none => rfl
    | some r =>
      obtain ⟨p1, m1⟩ := r
      simpa using key p1 m1 h
  · intro p1 m1 h
    exact ⟨p1, m1, key p1 m1 h, rfl, fun _ => rfl⟩

/-- Witness of C2 on the `en0` memory: both calls return offset 11 of block 1. -/
theorem lladdr_idempotent_witness :
    ∃ p2 m2, lladdr (.addr 0 0) en0_mem = some (p2, m2) ∧ p2 = .addr 1 11 ∧
      ∀ n, read_view m2 p2 n = read_view en0_mem (.addr 1 11) n :=
  (lladdr_idempotent (.addr 0 0) en0_mem).2 (.addr 1 11) en0_mem rfl

/-- C3: the view is non-owning: a byte written afterwards into the record's
hardware address (through the record's own socket address) is what a read
through the earlier view returns; the view lies in the block of the socket
address and the call created no block. -/
theorem lladdr_view_aliases (ifap : Ptr) (m : Mem) (sa : Ptr) (nlen : Byte)
    (p : Ptr) (m1 : Mem) (i : Nat) (v : Byte) (m2 : Mem)
    (hsa : load_ifa_addr m ifap = some sa)
    (hn : load8 m (sa.add off_sdl_nlen) = some nlen)
    (hcall : lladdr ifap m = some (p, m1))
    (hw : store8 m1 (sa.add (off_sdl_data + nlen.val + i)) v = some m2) :
    load8 m2 (p.add i) = some v ∧ m1.length = m.length ∧
      ∃ blk off, sa = .addr blk off ∧ p = .addr blk (off + off_sdl_data + nlen.val) := by
  have hres := lladdr_of_valid ifap m sa nlen hsa hn
  rw [hres] at hcall
  simp only [Option.some.injEq, Prod.mk.injEq] at hcall
  obtain ⟨hp, hm⟩ := hcall
  subst hp hm
  obtain ⟨blk, off, bs, hsa', -, -⟩ := load8_some_addr m _ nlen hn
  refine ⟨?_, rfl, ?_⟩
  · rw [Ptr.add_add, Ptr.add_add, ← Nat.add_assoc]
    exact load8_store8_same _ m2 _ v hw
  · cases sa with
    | null => simp [Ptr.add] at hsa'
    | addr b o => exact ⟨b, o, rfl, by simp [Ptr.add]⟩

/-- Witness of C3 on the `en0` memory: after `0xcc` is overwritten with `0x11`
the earlier view reads `0x11` at index 2. -/
theorem lladdr_view_aliases_witness :
    load8 en0_mem_written ((Ptr.addr 1 11).add 2) = some 0x11 ∧
      en0_mem.length = en0_mem.length ∧
      ∃ blk off, Ptr.addr 1 0 = .addr blk off ∧
        Ptr.addr 1 11 = .addr blk (off + off_sdl_data + (3 : Byte).val) :=
  lladdr_view_aliases (.addr 0 0) en0_mem (.addr 1 0) 3 (.addr 1 11) en0_mem 2 0x11
    en0_mem_written rfl rfl rfl rfl

/-- C4: `lladdr` has no side effect: the memory after a call is the memory
before it, so every interface record and every header field and data byte of
every socket address is unchanged; and the call returns whenever the record
and the name length of its socket address are readable. -/
theorem lladdr_no_side_effect (ifap : Ptr) (m : Mem) :
    (∀ p m1, lladdr ifap m = some (p, m1) →
      m1 = m ∧ (∀ q, load_ifa_addr m1 q = load_ifa_addr m q) ∧
        (∀ s, read_hdr m1 s = read_hdr m s) ∧ ∀ q, load8 m1 q = load8 m q) ∧
    ∀ sa nlen, load_ifa_addr m ifap = some sa →
      load8 m (sa.add off_sdl_nlen) = some nlen → ∃ p, lladdr ifap m = some (p, m) := by
  constructor
  · intro p m1 h
    obtain ⟨sa, nlen, -, -, -, hm⟩ := (lladdr_some_iff ifap m p m1).1 h
    subst hm
    exact ⟨rfl, fun _ => rfl, fun _ => rfl, fun _ => rfl⟩
  · intro sa nlen hsa hn
    exact ⟨_, lladdr_of_valid ifap m sa nlen hsa hn⟩

/-- Witness of C4 on the `en0` memory: the call returns and leaves the memory
as it was. -/
theorem lladdr_no_side_effect_witness :
    (∃ p, lladdr (.addr 0 0) en0_mem = some (p, en0_mem)) ∧
      (en0_mem = en0_mem ∧ (∀ q, load_ifa_addr en0_mem q = load_ifa_addr en0_mem q) ∧
        (∀ s, read_hdr en0_mem s = read_hdr en0_mem s) ∧
        ∀ q, load8 en0_mem q = load8 en0_mem q) :=
  ⟨(lladdr_no_side_effect (.addr 0 0) en0_mem).2 (.addr 1 0) 3 rfl rfl,
   (lladdr_no_side_effect (.addr 0 0) en0_mem).1 (.addr 1 11) en0_mem rfl⟩

/-- C5: `lladdr` checks no address family and reports no error: whenever the
record's socket address is there (its name length is readable), whatever its
family byte, the call returns the view given by the offset rule, which is not
the null pointer; a record that differs only in the family byte gets the same
view position. -/
theorem lladdr_no_family_check (ifap : Ptr) (m : Mem) (sa : Ptr) (nlen : Byte)
    (hsa : load_ifa_addr m ifap = some sa)
    (hn : load8 m (sa.add off_sdl_nlen) = some nlen) :
    lladdr ifap m = some ((sa.add off_sdl_data).add nlen.val, m) ∧
      (sa.add off_sdl_data).add nlen.val ≠ .null ∧
      ∀ f m', store8 m (sa.add off_sdl_family) f = some m' →
        lladdr ifap m' = some ((sa.add off_sdl_data).add nlen.val, m') := by
  refine ⟨lladdr_of_valid ifap m sa nlen hsa hn, ?_, ?_⟩
  · cases sa with
    | null => simp [Ptr.add, load8] at hn
    | addr blk off => simp [Ptr.add]
  · intro f m' hw
    exact lladdr_store8_field ifap m m' sa nlen f off_sdl_family hsa hn (by decide) hw

/-- Witness of C5: with family `AF_LINK` or `AF_INET` the view of the `en0`
record is offset 11 of block 1. -/
theorem lladdr_no_family_check_witness :
    lladdr (.addr 0 0) en0_mem = some (.addr 1 11, en0_mem) ∧
      lladdr (.addr 0 0) en0_mem_inet = some (.addr 1 11, en0_mem_inet) :=
  ⟨(lladdr_no_family_check (.addr 0 0) en0_mem (.addr 1 0) 3 rfl rfl).1,
   (lladdr_no_family_check (.addr 0 0) en0_mem (.addr 1 0) 3 rfl rfl).2.2 2 en0_mem_inet rfl⟩

/-- C6: `lladdr` does not communicate the address length: its result is a
bare position (block and offset), it is determined by the socket-address
pointer and the name length alone, and a record that differs only in the
stored address length `sdl_alen` gets the same view position. -/
theorem lladdr_ignores_alen (ifap : Ptr) (m : Mem) (sa : Ptr) (nlen : Byte)
    (hsa : load_ifa_addr m ifap = some sa)
    (hn : load8 m (sa.add off_sdl_nlen) = some nlen) :
    (∀ a m', store8 m (sa.add off_sdl_alen) a = some m' →
      (lladdr ifap m').map Prod.fst = (lladdr ifap m).map Prod.fst ∧
        (lladdr ifap m).map Prod.fst = some ((sa.add off_sdl_data).add nlen.val)) ∧
    ∀ ifap2 m2, load_ifa_addr m2 ifap2 = some sa →
      load8 m2 (sa.add off_sdl_nlen) = some nlen →
      (lladdr ifap2 m2).map Prod.fst = (lladdr ifap m).map Prod.fst := by
  have h0 := lladdr_of_valid ifap m sa nlen hsa hn
  constructor
  · intro a m' hw
    rw [lladdr_store8_field ifap m m' sa nlen a off_sdl_alen hsa hn (by decide) hw, h0]
    exact ⟨rfl, rfl⟩
  · intro ifap2 m2 hsa2 hn2
    rw [lladdr_of_valid ifap2 m2 sa nlen hsa2 hn2, h0]
    rfl

/-- Witness of C6: with `sdl_alen` 6 or 0 the view of the `en0` record is at
the same position, offset 11 of block 1. -/
theorem lladdr_ignores_alen_witness :
    (lladdr (.addr 0 0) en0_mem_alen0).map Prod.fst =
        (lladdr (.addr 0 0) en0_mem).map Prod.fst ∧
      (lladdr (.addr 0 0) en0_mem).map Prod.fst =
        some (((Ptr.addr 1 0).add off_sdl_data).add (3 : Byte).val) :=
  (lladdr_ignores_alen (.addr 0 0) en0_mem (.addr 1 0) 3 rfl rfl).1 0 en0_mem_alen0 rfl

/-- C7: loopback boundary: for a valid link-layer record, `lladdr` returns
normally; when the stored address length is zero, reading that length from the
view gives the empty sequence, and when the `n` bytes of the hardware-address
field are all zero, reading `n` bytes from the view gives `n` zero bytes. -/
theorem lladdr_loopback (ifap : Ptr) (m : Mem) (sa : Ptr) (hdr : sockaddr_dl_hdr)
    (hsa : load_ifa_addr m ifap = some sa)
    (hh : read_hdr m sa = some hdr)
    (_hfam : hdr.sdl_family = AF_LINK) :
    ∃ p, lladdr ifap m = some (p, m) ∧
      (hdr.sdl_alen = 0 → read_view m p hdr.sdl_alen = some []) ∧
      ∀ n, (∀ i, i < n → load8 m (sa.add (off_sdl_data + hdr.sdl_nlen + i)) = some 0) →
        read_view m p n = some (List.replicate n 0) := by
  obtain ⟨l, f, nl, a, -, -, hn, -, -, -, hnl, -⟩ := read_hdr_some m sa hdr hh
  refine ⟨_, lladdr_of_valid ifap m sa nl hsa hn, ?_, ?_⟩
  · intro h0
    rw [h0]
    rfl
  · intro n hz
    refine (read_view_spec m n _ _).2 ⟨by simp, ?_⟩
    intro i hi
    rw [Ptr.add_add, Ptr.add_add, ← Nat.add_assoc, ← hnl, hz i hi]
    simp [List.getElem?_replicate, hi]

/-- Witness of C7 on the loopback memory: reading zero bytes gives the empty
sequence and reading the conventional six bytes gives six zeros. -/
theorem lladdr_loopback_witness :
    ∃ p, lladdr (.addr 0 0) lo0_mem = some (p, lo0_mem) ∧
      read_view lo0_mem p 0 = some [] ∧
      read_view lo0_mem p 6 = some [0, 0, 0, 0, 0, 0] := by
  obtain ⟨p, hp, h0, hz⟩ :=
    lladdr_loopback (.addr 0 0) lo0_mem (.addr 1 0) ⟨20, 18, 1, 24, 3, 0, 0⟩ rfl rfl rfl
  refine ⟨p, hp, h0 rfl, hz 6 ?_⟩
  intro i hi
  interval_cases i <;> rfl

/-- C9: the view starts at the variable data area `sdl_data` of the socket
address (offset 8, right after the fixed header) advanced by the name length
`sdl_nlen`; it starts at the first byte after the fixed header exactly when
the name length is zero. -/
theorem lladdr_position (ifap : Ptr) (m : Mem) (blk off : Nat) (nlen : Byte)
    (hsa : load_ifa_addr m ifap = some (.addr blk off))
    (hn : load8 m (.addr blk (off + off_sdl_nlen)) = some nlen) :
    ∃ p, lladdr ifap m = some (p, m) ∧
      p = ((Ptr.addr blk off).add off_sdl_data).add nlen.val ∧
      p = .addr blk (off + 8 + nlen.val) ∧
      (p = .addr blk (off + 8) ↔ nlen.val = 0) := by
  refine ⟨_, lladdr_of_valid ifap m (.addr blk off) nlen hsa hn, rfl, rfl, ?_⟩
  simp [Ptr.add, off_sdl_data]

/-- Witness of C9 on the `en0` memory: name length 3 puts the view at offset
8 + 3 of the socket address. -/
theorem lladdr_position_witness :
    ∃ p, lladdr (.addr 0 0) en0_mem = some (p, en0_mem) ∧
      p = ((Ptr.addr 1 0).add off_sdl_data).add (3 : Byte).val ∧
      p = .addr 1 (0 + 8 + (3 : Byte).val) ∧
      (p = .addr 1 (0 + 8) ↔ (3 : Byte).val = 0) :=
  lladdr_position (.addr 0 0) en0_mem 1 0 3 rfl rfl

/-- C10: for a record whose socket address occupies `sdl_len` bytes of its
block and is well-formed (`8 + sdl_nlen + sdl_alen ≤ sdl_len`), every index
`i < sdl_alen` read through the view returns a byte, at a position inside the
`sdl_len` bytes of the socket address and past its fixed header and its
interface-name bytes. -/
theorem lladdr_in_bounds (ifap : Ptr) (m : Mem) (blk off : Nat) (bs : List Byte)
    (hdr : sockaddr_dl_hdr)
    (hsa : load_ifa_addr m ifap = some (.addr blk off))
    (hb : m[blk]? = some (.bytes bs))
    (hh : read_hdr m (.addr blk off) = some hdr)
    (hext : off + hdr.sdl_len ≤ bs.length)
    (hwf : off_sdl_data + hdr.sdl_nlen + hdr.sdl_alen ≤ hdr.sdl_len) :
    ∃ voff, lladdr ifap m = some (.addr blk voff, m) ∧
      ∀ i, i < hdr.sdl_alen →
        (∃ b, load8 m ((Ptr.addr blk voff).add i) = some b) ∧
        off + off_sdl_data + hdr.sdl_nlen ≤ voff + i ∧
        voff + i < off + hdr.sdl_len := by
  obtain ⟨l, f, nl, a, -, -, hn, -, -, -, hnl, -⟩ := read_hdr_some m _ hdr hh
  refine ⟨off + off_sdl_data + nl.val, lladdr_of_valid ifap m _ nl hsa hn, ?_⟩
  intro i hi
  have hlt : off + off_sdl_data + nl.val + i < bs.length := by
    rw [← hnl]
    omega
  refine ⟨⟨bs.get ⟨_, hlt⟩, ?_⟩, ?_, ?_⟩
  · simp only [Ptr.add]
    rw [load8_addr m blk _ bs hb]
    exact List.getElem?_eq_getElem hlt
  · rw [← hnl]
    omega
  · rw [← hnl]
    omega

/-- Witness of C10 on the `en0` memory: 8 + 3 + 6 ≤ 20, and the six address
bytes are read at offsets 11 to 16. -/
theorem lladdr_in_bounds_witness :
    ∃ voff, lladdr (.addr 0 0) en0_mem = some (.addr 1 voff, en0_mem) ∧
      ∀ i, i < 6 →
        (∃ b, load8 en0_mem ((Ptr.addr 1 voff).add i) = some b) ∧
        0 + off_sdl_data + 3 ≤ voff + i ∧ voff + i < 0 + 20 :=
  lladdr_in_bounds (.addr 0 0) en0_mem 1 0 en0_sockaddr ⟨20, 18, 4, 6, 3, 6, 0⟩
    rfl rfl rfl (by decide) (by decide)

end NetworkInterface
